import Mathlib

/-!
Shallow embedding of the rustracer core: src/vec3.rs, src/ray.rs and
src/surface/hittable.rs.  Scalars (Rust f64) are modelled as exact
rationals; every definition mirrors the structure of the corresponding
Rust item.  Trait objects (Box<dyn Hittable>) are modelled as functions
from a ray and a parameter range to an optional hit.
-/

/-- Vec3 from src/vec3.rs: a 3-component vector of scalars. -/
structure Vec3 where
  x : ℚ
  y : ℚ
  z : ℚ
deriving DecidableEq

/-- Vec3::ZERO from src/vec3.rs. -/
def Vec3.ZERO : Vec3 := ⟨0, 0, 0⟩

/-- Vec3::length_squared from src/vec3.rs. -/
def Vec3.length_squared (v : Vec3) : ℚ := v.x * v.x + v.y * v.y + v.z * v.z

/-- Vec3::dot from src/vec3.rs (free function over two vectors). -/
def Vec3.dot (a b : Vec3) : ℚ := a.x * b.x + a.y * b.y + a.z * b.z

/-- Vec3::cross from src/vec3.rs. -/
def Vec3.cross (a b : Vec3) : Vec3 :=
  ⟨a.y * b.z - a.z * b.y, a.z * b.x - a.x * b.z, a.x * b.y - a.y * b.x⟩

/-- Componentwise vector addition: the base impl of Add generated by
impl_binary_operations for two (borrowed) Vec3 arguments; the owned-value
impls all forward to this one. -/
def Vec3.add (a b : Vec3) : Vec3 := ⟨a.x + b.x, a.y + b.y, a.z + b.z⟩

/-- Componentwise vector subtraction (impl_binary_operations, Sub). -/
def Vec3.sub (a b : Vec3) : Vec3 := ⟨a.x - b.x, a.y - b.y, a.z - b.z⟩

/-- Componentwise vector multiplication (impl_binary_operations, Mul). -/
def Vec3.mul (a b : Vec3) : Vec3 := ⟨a.x * b.x, a.y * b.y, a.z * b.z⟩

/-- Componentwise vector division (impl_binary_operations, Div). -/
def Vec3.div (a b : Vec3) : Vec3 := ⟨a.x / b.x, a.y / b.y, a.z / b.z⟩

/-- Vector-scalar addition: impl Add of f64 for &Vec3 (each component plus
the scalar). -/
def Vec3.addScalar (v : Vec3) (s : ℚ) : Vec3 := ⟨v.x + s, v.y + s, v.z + s⟩

/-- Scalar-vector addition: impl Add of Vec3 for f64 forwards to
&other + self, i.e. to Vec3.addScalar. -/
def Vec3.scalarAdd (s : ℚ) (v : Vec3) : Vec3 := Vec3.addScalar v s

/-- Vector-scalar subtraction: impl Sub of f64 for &Vec3. -/
def Vec3.subScalar (v : Vec3) (s : ℚ) : Vec3 := ⟨v.x - s, v.y - s, v.z - s⟩

/-- Scalar-vector subtraction: impl Sub of Vec3 for f64 forwards to
&other - self, i.e. it computes the vector minus the scalar. -/
def Vec3.scalarSub (s : ℚ) (v : Vec3) : Vec3 := Vec3.subScalar v s

/-- Vector-scalar multiplication: impl Mul of f64 for &Vec3. -/
def Vec3.mulScalar (v : Vec3) (s : ℚ) : Vec3 := ⟨v.x * s, v.y * s, v.z * s⟩

/-- Scalar-vector multiplication: impl Mul of Vec3 for f64 forwards to
&other * self, i.e. to Vec3.mulScalar. -/
def Vec3.scalarMul (s : ℚ) (v : Vec3) : Vec3 := Vec3.mulScalar v s

/-- Vector-scalar division: impl Div of f64 for &Vec3. -/
def Vec3.divScalar (v : Vec3) (s : ℚ) : Vec3 := ⟨v.x / s, v.y / s, v.z / s⟩

/-- Scalar-vector division: impl Div of Vec3 for f64 forwards to
&other / self, i.e. it computes the vector divided by the scalar. -/
def Vec3.scalarDiv (s : ℚ) (v : Vec3) : Vec3 := Vec3.divScalar v s

/-- Unary negation (impl_unary_operations, Neg). -/
def Vec3.neg (v : Vec3) : Vec3 := ⟨-v.x, -v.y, -v.z⟩

/-- Compound assignment a += b with RHS a borrowed vector: the base impl
generated by impl_op_assign writes a fresh componentwise sum into self;
modelled as returning the new value of self. -/
def Vec3.add_assign (a b : Vec3) : Vec3 := ⟨a.x + b.x, a.y + b.y, a.z + b.z⟩

/-- Compound assignment a += b with RHS an owned vector: forwards to the
binary operator on (value, reference), i.e. to Vec3.add. -/
def Vec3.add_assign_val (a b : Vec3) : Vec3 := Vec3.add a b

/-- Compound assignment a -= b with RHS a borrowed vector. -/
def Vec3.sub_assign (a b : Vec3) : Vec3 := ⟨a.x - b.x, a.y - b.y, a.z - b.z⟩

/-- Compound assignment a -= b with RHS an owned vector: forwards to
Vec3.sub. -/
def Vec3.sub_assign_val (a b : Vec3) : Vec3 := Vec3.sub a b

/-- Compound assignment a *= b with RHS a borrowed vector. -/
def Vec3.mul_assign (a b : Vec3) : Vec3 := ⟨a.x * b.x, a.y * b.y, a.z * b.z⟩

/-- Compound assignment a *= b with RHS an owned vector: forwards to
Vec3.mul. -/
def Vec3.mul_assign_val (a b : Vec3) : Vec3 := Vec3.mul a b

/-- Compound assignment a /= b with RHS a borrowed vector. -/
def Vec3.div_assign (a b : Vec3) : Vec3 := ⟨a.x / b.x, a.y / b.y, a.z / b.z⟩

/-- Compound assignment a /= b with RHS an owned vector: forwards to
Vec3.div. -/
def Vec3.div_assign_val (a b : Vec3) : Vec3 := Vec3.div a b

/-- Point, the alias for Vec3 used by src/ray.rs for positions. -/
abbrev Point := Vec3

/-- Ray from src/ray.rs: an origin point and a direction vector. -/
structure Ray where
  origin : Point
  direction : Vec3
deriving DecidableEq

/-- Ray::at from src/ray.rs: self.origin + t * self.direction, where the
scalar product t * direction is the f64-times-Vec3 operator instance. -/
def Ray.at (r : Ray) (t : ℚ) : Point := Vec3.add r.origin (Vec3.scalarMul t r.direction)

/-- Hit from src/surface/hittable.rs: intersection point, oriented normal,
ray parameter and front-face flag. -/
structure Hit where
  p : Point
  normal : Vec3
  t : ℚ
  front_face : Bool
deriving DecidableEq

/-- Hit::new from src/surface/hittable.rs.  The source reads the ray's
direction field (written ray.dir there) and compares its dot product with
the outward normal strictly against 0.0. -/
def Hit.new (ray : Ray) (t : ℚ) (outward_normal : Vec3) : Hit :=
  let p := ray.at t
  let front_face : Bool := decide (Vec3.dot ray.direction outward_normal < 0)
  let normal := if front_face then outward_normal else Vec3.neg outward_normal
  ⟨p, normal, t, front_face⟩

/-- Range of f64 from std::ops, as used for the parametric interval in
src/surface/hittable.rs.  The second Rust field is named end; it is
renamed stop here because end is a Lean keyword. -/
structure TRange where
  start : ℚ
  stop : ℚ
deriving DecidableEq

/-- A trait object Box<dyn Hittable>: the hit method itself, taking a ray
and a parameter range and optionally returning a Hit. -/
abbrev Hittable := Ray → TRange → Option Hit

/-- HittableList from src/surface/hittable.rs: Vec<Box<dyn Hittable>>. -/
abbrev HittableList := List Hittable

/-- The for-loop body of HittableList::hit: traverse the members in order,
querying each with t_range.start..closest_so_far, and on a hit replace the
accumulator and tighten closest_so_far to the hit's t. -/
def hitLoop (ray : Ray) (tmin : ℚ) : HittableList → ℚ → Option Hit → Option Hit
  | [], _, acc => acc
  | o :: rest, closest, acc =>
    match o ray ⟨tmin, closest⟩ with
    | some h => hitLoop ray tmin rest h.t (some h)
    | none => hitLoop ray tmin rest closest acc

/-- Hittable::hit for HittableList from src/surface/hittable.rs:
closest_so_far starts at t_range.end and hit_anything at None, then the
loop above runs over all members. -/
def HittableList.hit (self : HittableList) (ray : Ray) (t_range : TRange) : Option Hit :=
  hitLoop ray t_range.start self t_range.stop none

/-- Instrumented copy of hitLoop that additionally records the range passed
to each member, in traversal order. -/
def hitLoopT (ray : Ray) (tmin : ℚ) : HittableList → ℚ → Option Hit → List TRange × Option Hit
  | [], _, acc => ([], acc)
  | o :: rest, closest, acc =>
    match o ray ⟨tmin, closest⟩ with
    | some h =>
      let pr := hitLoopT ray tmin rest h.t (some h)
      (⟨tmin, closest⟩ :: pr.1, pr.2)
    | none =>
      let pr := hitLoopT ray tmin rest closest acc
      (⟨tmin, closest⟩ :: pr.1, pr.2)

/-- Membership of a parameter in a Rust range start..end, with the upper
bound exclusive as the aggregate's narrowing logic assumes. -/
def InWindow (r : TRange) (t : ℚ) : Prop := r.start ≤ t ∧ t < r.stop

instance (r : TRange) (t : ℚ) : Decidable (InWindow r t) :=
  inferInstanceAs (Decidable (r.start ≤ t ∧ t < r.stop))

/-- A parameter value that is the closest (minimum-t) member of a candidate
list falling inside a queried range. -/
def LeastCand (cands : List ℚ) (r : TRange) (t : ℚ) : Prop :=
  t ∈ cands ∧ InWindow r t ∧ ∀ u ∈ cands, InWindow r u → t ≤ u

instance (cands : List ℚ) (r : TRange) (t : ℚ) : Decidable (LeastCand cands r t) :=
  inferInstanceAs (Decidable (t ∈ cands ∧ InWindow r t ∧ ∀ u ∈ cands, InWindow r u → t ≤ u))

/-- The Hittable contract of the spec, relative to a fixed ray: the object
is described by a list of candidate intersection parameters and a function
giving the Hit it builds at each parameter (whose stored t is that
parameter); queried on any range it returns the closest candidate inside
the range, or none when no candidate lies inside. -/
def SatisfiesContract (o : Hittable) (ray : Ray) (cands : List ℚ) (mk : ℚ → Hit) : Prop :=
  (∀ t, (mk t).t = t) ∧
  ∀ r : TRange,
    ((∀ t ∈ cands, ¬ InWindow r t) → o ray r = none) ∧
    (∀ t, LeastCand cands r t → o ray r = some (mk t))

/-- A mock hittable object with a single fixed intersection: it answers
with its one hit exactly when that hit's parameter lies in the queried
range. -/
def singleHit (h : Hit) : Hittable :=
  fun _ r => if InWindow r h.t then some h else none

/-- All candidate parameters of a list of contract descriptions. -/
def allCands (specs : List (List ℚ × (ℚ → Hit))) : List ℚ :=
  (specs.map Prod.fst).flatten

/-- The canonical hit family of a mock object: the given hit with its ray
parameter replaced. -/
def reparamHit (h : Hit) : ℚ → Hit := fun u => ⟨h.p, h.normal, u, h.front_face⟩

/-- A mock member that never reports an intersection. -/
def nullObj : Hittable := fun _ _ => none

/-- A mock member that reports the same hit for every query, regardless of
the queried interval. -/
def constObj (h : Hit) : Hittable := fun _ _ => some h

/-- The responses of the members of a list, each evaluated on the range the
traversal of HittableList::hit actually passes to it. -/
def respList (objs : HittableList) (ray : Ray) (tmin c : ℚ) : List (Option Hit) :=
  (objs.zip (hitLoopT ray tmin objs c none).1).map (fun p => p.1 ray p.2)

/-- A concrete ray used in the concrete instantiations below. -/
def exRay : Ray := ⟨⟨0, 0, 0⟩, ⟨1, 0, 0⟩⟩

/-- A concrete front-facing hit at a given parameter. -/
def exHit (t : ℚ) : Hit := ⟨⟨0, 0, 0⟩, ⟨1, 0, 0⟩, t, true⟩

/-- A concrete non-front-facing hit at a given parameter. -/
def exHitF (t : ℚ) : Hit := ⟨⟨0, 0, 0⟩, ⟨1, 0, 0⟩, t, false⟩

/-- C1: Hit::new sets the intersection point p to ray.at(t), stores the
parameter t, sets front_face to true exactly when the dot product of the
ray's direction and the outward normal is strictly negative, stores the
outward normal when front-facing and its negation otherwise, and in
particular a zero dot product yields front_face false and the negated
normal. -/
theorem hit_new_front_face_law (ray : Ray) (t : ℚ) (n : Vec3) :
    (Hit.new ray t n).p = ray.at t ∧
    (Hit.new ray t n).t = t ∧
    ((Hit.new ray t n).front_face = true ↔ Vec3.dot ray.direction n < 0) ∧
    (Vec3.dot ray.direction n < 0 → (Hit.new ray t n).normal = n) ∧
    (¬ Vec3.dot ray.direction n < 0 → (Hit.new ray t n).normal = Vec3.neg n) ∧
    (Vec3.dot ray.direction n = 0 →
      (Hit.new ray t n).front_face = false ∧ (Hit.new ray t n).normal = Vec3.neg n) := by
  refine ⟨rfl, rfl, ?_, ?_, ?_, ?_⟩
  · by_cases hd : Vec3.dot ray.direction n < 0 <;> simp [Hit.new, hd]
  · intro hd; simp [Hit.new, hd]
  · intro hd; simp [Hit.new, hd]
  · intro hd
    have hd' : ¬ Vec3.dot ray.direction n < 0 := by rw [hd]; exact lt_irrefl 0
    simp [Hit.new, hd']

/-- C1 witness: concrete instances of the front-face law, one with a
strictly negative dot product and one with a zero dot product. -/
theorem hit_new_front_face_law_witness :
    (Hit.new ⟨⟨0, 0, 0⟩, ⟨1, 0, 0⟩⟩ 2 ⟨-1, 0, 0⟩).normal = ⟨-1, 0, 0⟩ ∧
    (Hit.new ⟨⟨0, 0, 0⟩, ⟨0, 1, 0⟩⟩ 2 ⟨-1, 0, 0⟩).front_face = false ∧
    (Hit.new ⟨⟨0, 0, 0⟩, ⟨0, 1, 0⟩⟩ 2 ⟨-1, 0, 0⟩).normal = Vec3.neg ⟨-1, 0, 0⟩ := by
  refine ⟨(hit_new_front_face_law _ _ _).2.2.2.1 ?_,
    ((hit_new_front_face_law _ _ _).2.2.2.2.2 ?_).1,
    ((hit_new_front_face_law _ _ _).2.2.2.2.2 ?_).2⟩ <;> norm_num [Vec3.dot]

/-- C6: Ray::at equals origin + t * direction exactly (stated both against
the operator instances the source composes and componentwise), for every
parameter t including negative values; the evaluation is a total function
with no failure mode. -/
theorem ray_at_eval (r : Ray) (t : ℚ) :
    r.at t = Vec3.add r.origin (Vec3.scalarMul t r.direction) ∧
    r.at t = ⟨r.origin.x + r.direction.x * t,
              r.origin.y + r.direction.y * t,
              r.origin.z + r.direction.z * t⟩ :=
  ⟨rfl, rfl⟩

/-- C7: vector addition is commutative and associative, a vector minus
itself is the zero vector, and scalar-times-vector equals
vector-times-scalar. -/
theorem vec3_algebraic_laws (a b c : Vec3) (s : ℚ) :
    Vec3.add a b = Vec3.add b a ∧
    Vec3.add (Vec3.add a b) c = Vec3.add a (Vec3.add b c) ∧
    Vec3.sub a a = Vec3.ZERO ∧
    Vec3.scalarMul s a = Vec3.mulScalar a s :=
  ⟨by simp [Vec3.add, add_comm],
   by simp [Vec3.add, add_assoc],
   by simp [Vec3.sub, Vec3.ZERO],
   rfl⟩

/-- C10: for each of the four arithmetic operations, both compound
assignment impls (borrowed and owned RHS) leave the assigned vector equal
to the corresponding binary operation applied to its prior value. -/
theorem vec3_op_assign_eq_binary (a b : Vec3) :
    Vec3.add_assign a b = Vec3.add a b ∧ Vec3.add_assign_val a b = Vec3.add a b ∧
    Vec3.sub_assign a b = Vec3.sub a b ∧ Vec3.sub_assign_val a b = Vec3.sub a b ∧
    Vec3.mul_assign a b = Vec3.mul a b ∧ Vec3.mul_assign_val a b = Vec3.mul a b ∧
    Vec3.div_assign a b = Vec3.div a b ∧ Vec3.div_assign_val a b = Vec3.div a b :=
  ⟨rfl, rfl, rfl, rfl, rfl, rfl, rfl, rfl⟩

/-- Two closest candidates of the same list in the same range coincide. -/
theorem leastCand_unique {cands : List ℚ} {r : TRange} {t t' : ℚ}
    (h : LeastCand cands r t) (h' : LeastCand cands r t') : t = t' :=
  le_antisymm (h.2.2 t' h'.1 h'.2.1) (h'.2.2 t h.1 h.2.1)

/-- A candidate list with some member inside the range has a closest member
inside the range. -/
theorem exists_leastCand (r : TRange) :
    ∀ cands : List ℚ, (∃ t ∈ cands, InWindow r t) → ∃ t0, LeastCand cands r t0 := by
  intro cands
  induction cands with
  | nil => simp
  | cons a l ih =>
    intro hex
    by_cases hal : ∃ t ∈ l, InWindow r t
    · obtain ⟨t0, ht0m, ht0w, ht0le⟩ := ih hal
      by_cases ha : InWindow r a
      · by_cases hle : a ≤ t0
        · refine ⟨a, List.mem_cons_self a l, ha, ?_⟩
          intro u hu hwu
          rcases List.mem_cons.mp hu with rfl | hu'
          · exact le_refl u
          · exact le_trans hle (ht0le u hu' hwu)
        · refine ⟨t0, List.mem_cons_of_mem a ht0m, ht0w, ?_⟩
          intro u hu hwu
          rcases List.mem_cons.mp hu with rfl | hu'
          · exact le_of_lt (lt_of_not_le hle)
          · exact ht0le u hu' hwu
      · refine ⟨t0, List.mem_cons_of_mem a ht0m, ht0w, ?_⟩
        intro u hu hwu
        rcases List.mem_cons.mp hu with rfl | hu'
        · exact absurd hwu ha
        · exact ht0le u hu' hwu
    · have ha : InWindow r a := by
        obtain ⟨t, ht, hw⟩ := hex
        rcases List.mem_cons.mp ht with rfl | ht'
        · exact hw
        · exact absurd ⟨t, ht', hw⟩ hal
      refine ⟨a, List.mem_cons_self a l, ha, ?_⟩
      intro u hu hwu
      rcases List.mem_cons.mp hu with rfl | hu'
      · exact le_refl u
      · exact absurd ⟨u, hu', hwu⟩ hal

/-- The single-intersection mock object satisfies the Hittable contract
with its one candidate parameter. -/
theorem singleHit_contract (h : Hit) (ray : Ray) :
    SatisfiesContract (singleHit h) ray [h.t] (reparamHit h) := by
  refine ⟨fun t => rfl, fun r => ⟨?_, ?_⟩⟩
  · intro hnone
    have hni : ¬ InWindow r h.t := hnone h.t (List.mem_singleton_self _)
    simp [singleHit, hni]
  · intro t hL
    have ht : t = h.t := by simpa using hL.1
    subst ht
    simp [singleHit, hL.2.1, reparamHit]

/-- The candidates of a cons of contract descriptions. -/
theorem allCands_cons (s : List ℚ × (ℚ → Hit)) (specs : List (List ℚ × (ℚ → Hit))) :
    allCands (s :: specs) = s.1 ++ allCands specs := by
  simp [allCands]

/-- Core invariant of the narrowing traversal: over members satisfying the
Hittable contract, the loop leaves the accumulator untouched when no
candidate lies in the current window, and otherwise ends with the hit some
member builds at the closest candidate of the window. -/
theorem hitLoop_spec (ray : Ray) (tmin : ℚ) :
    ∀ (specs : List (List ℚ × (ℚ → Hit))) (objs : HittableList) (c : ℚ) (acc : Option Hit),
      List.Forall₂ (fun o s => SatisfiesContract o ray s.1 s.2) objs specs →
      ((∀ t ∈ allCands specs, ¬ InWindow ⟨tmin, c⟩ t) → hitLoop ray tmin objs c acc = acc) ∧
      (∀ t, LeastCand (allCands specs) ⟨tmin, c⟩ t →
        ∃ s ∈ specs, t ∈ s.1 ∧ hitLoop ray tmin objs c acc = some (s.2 t) ∧ (s.2 t).t = t) := by
  intro specs
  induction specs with
  | nil =>
    intro objs c acc hF
    cases hF
    constructor
    · intro _; rfl
    · intro t hL
      exact absurd hL.1 (by simp [allCands])
  | cons s srest ih =>
    intro objs c acc hF
    cases hF with
    | cons ho hrest =>
      rename_i o objs'
      obtain ⟨hmkt, hresp⟩ := ho
      by_cases hex : ∃ u ∈ s.1, InWindow ⟨tmin, c⟩ u
      · obtain ⟨t0, ht0m, ht0w, ht0le⟩ := exists_leastCand ⟨tmin, c⟩ s.1 hex
        have hr : o ray ⟨tmin, c⟩ = some (s.2 t0) :=
          (hresp ⟨tmin, c⟩).2 t0 ⟨ht0m, ht0w, ht0le⟩
        have hstep : hitLoop ray tmin (o :: objs') c acc =
            hitLoop ray tmin objs' t0 (some (s.2 t0)) := by
          simp [hitLoop, hr, hmkt t0]
        have ht0mem : t0 ∈ allCands (s :: srest) := by
          rw [allCands_cons]; exact List.mem_append_left _ ht0m
        constructor
        · intro hnone
          exact absurd ht0w (hnone t0 ht0mem)
        · intro t hL
          have htle : t ≤ t0 := hL.2.2 t0 ht0mem ht0w
          by_cases hts : t ∈ s.1
          · have ht0t : t0 ≤ t := ht0le t hts hL.2.1
            have heq : t = t0 := le_antisymm htle ht0t
            subst heq
            have hnone' : ∀ u ∈ allCands srest, ¬ InWindow ⟨tmin, t⟩ u := by
              intro u hu hwu
              have hwc : InWindow ⟨tmin, c⟩ u := ⟨hwu.1, lt_trans hwu.2 ht0w.2⟩
              have humem : u ∈ allCands (s :: srest) := by
                rw [allCands_cons]; exact List.mem_append_right _ hu
              exact absurd hwu.2 (not_lt.mpr (hL.2.2 u humem hwc))
            have hres := (ih objs' t (some (s.2 t)) hrest).1 hnone'
            rw [hstep, hres]
            exact ⟨s, List.mem_cons_self s srest, hts, rfl, hmkt t⟩
          · have htr : t ∈ allCands srest := by
              have := hL.1
              rw [allCands_cons] at this
              rcases List.mem_append.mp this with h1 | h2
              · exact absurd h1 hts
              · exact h2
            have htne : t ≠ t0 := fun he => hts (he ▸ ht0m)
            have htlt : t < t0 := lt_of_le_of_ne htle htne
            have hL' : LeastCand (allCands srest) ⟨tmin, t0⟩ t := by
              refine ⟨htr, ⟨hL.2.1.1, htlt⟩, ?_⟩
              intro u hu hwu
              have hwc : InWindow ⟨tmin, c⟩ u := ⟨hwu.1, lt_trans hwu.2 ht0w.2⟩
              have humem : u ∈ allCands (s :: srest) := by
                rw [allCands_cons]; exact List.mem_append_right _ hu
              exact hL.2.2 u humem hwc
            obtain ⟨s', hs', hmem', heq', ht'⟩ := (ih objs' t0 (some (s.2 t0)) hrest).2 t hL'
            rw [hstep]
            exact ⟨s', List.mem_cons_of_mem s hs', hmem', heq', ht'⟩
      · push_neg at hex
        have hr : o ray ⟨tmin, c⟩ = none := (hresp ⟨tmin, c⟩).1 hex
        have hstep : hitLoop ray tmin (o :: objs') c acc = hitLoop ray tmin objs' c acc := by
          simp [hitLoop, hr]
        constructor
        · intro hnone
          rw [hstep]
          refine (ih objs' c acc hrest).1 ?_
          intro u hu
          refine hnone u ?_
          rw [allCands_cons]; exact List.mem_append_right _ hu
        · intro t hL
          have htr : t ∈ allCands srest := by
            have := hL.1
            rw [allCands_cons] at this
            rcases List.mem_append.mp this with h1 | h2
            · exact absurd hL.2.1 (hex t h1)
            · exact h2
          have hL' : LeastCand (allCands srest) ⟨tmin, c⟩ t := by
            refine ⟨htr, hL.2.1, ?_⟩
            intro u hu hwu
            refine hL.2.2 u ?_ hwu
            rw [allCands_cons]; exact List.mem_append_right _ hu
          obtain ⟨s', hs', hmem', heq', ht'⟩ := (ih objs' c acc hrest).2 t hL'
          rw [hstep]
          exact ⟨s', List.mem_cons_of_mem s hs', hmem', heq', ht'⟩

/-- C2: when every member satisfies the Hittable contract, the aggregate
returns None when no member has a candidate intersection inside the
queried interval, and otherwise returns the hit built at the minimum
candidate over all members, by a member owning that candidate; the stored
t of the returned hit is that minimum. -/
theorem hittableList_hit_min (ray : Ray) (tr : TRange) (objs : HittableList)
    (specs : List (List ℚ × (ℚ → Hit)))
    (hF : List.Forall₂ (fun o s => SatisfiesContract o ray s.1 s.2) objs specs) :
    ((∀ t ∈ allCands specs, ¬ InWindow tr t) → HittableList.hit objs ray tr = none) ∧
    (∀ t, LeastCand (allCands specs) tr t →
      ∃ s ∈ specs, t ∈ s.1 ∧
        HittableList.hit objs ray tr = some (s.2 t) ∧ (s.2 t).t = t) :=
  hitLoop_spec ray tr.start specs objs tr.stop none hF

/-- C2 witness: two mock members with fixed hits at t=2 and t=7; the
aggregate over the interval from 0 to 10 yields the t=2 hit, over 3 to 10
the t=7 hit, and over 0 to 1 no hit. -/
theorem hittableList_hit_min_witness :
    HittableList.hit [singleHit (exHit 2), singleHit (exHit 7)] exRay ⟨0, 10⟩ = some (exHit 2) ∧
    HittableList.hit [singleHit (exHit 2), singleHit (exHit 7)] exRay ⟨3, 10⟩ = some (exHit 7) ∧
    HittableList.hit [singleHit (exHit 2), singleHit (exHit 7)] exRay ⟨0, 1⟩ = none := by
  have hF : List.Forall₂ (fun o s => SatisfiesContract o exRay s.1 s.2)
      [singleHit (exHit 2), singleHit (exHit 7)]
      [([2], reparamHit (exHit 2)), ([7], reparamHit (exHit 7))] :=
    List.Forall₂.cons (singleHit_contract (exHit 2) exRay)
      (List.Forall₂.cons (singleHit_contract (exHit 7) exRay) List.Forall₂.nil)
  refine ⟨?_, ?_, ?_⟩
  · obtain ⟨s, hs, hmem, heq, -⟩ :=
      (hittableList_hit_min exRay ⟨0, 10⟩ _ _ hF).2 2 (by decide)
    rcases List.mem_cons.mp hs with rfl | hs'
    · exact heq
    · rcases List.mem_cons.mp hs' with rfl | hs''
      · exact absurd hmem (by decide)
      · exact absurd hs'' (List.not_mem_nil s)
  · obtain ⟨s, hs, hmem, heq, -⟩ :=
      (hittableList_hit_min exRay ⟨3, 10⟩ _ _ hF).2 7 (by decide)
    rcases List.mem_cons.mp hs with rfl | hs'
    · exact absurd hmem (by decide)
    · rcases List.mem_cons.mp hs' with rfl | hs''
      · exact heq
      · exact absurd hs'' (List.not_mem_nil s)
  · exact (hittableList_hit_min exRay ⟨0, 1⟩ _ _ hF).1 (by decide)

/-- Over contract-satisfying members the aggregate returns None exactly
when no candidate of any member lies inside the queried interval. -/
theorem hit_none_iff (ray : Ray) (tr : TRange) (objs : HittableList)
    (specs : List (List ℚ × (ℚ → Hit)))
    (hF : List.Forall₂ (fun o s => SatisfiesContract o ray s.1 s.2) objs specs) :
    HittableList.hit objs ray tr = none ↔ ∀ t ∈ allCands specs, ¬ InWindow tr t := by
  constructor
  · intro hn
    by_contra hc
    push_neg at hc
    obtain ⟨t, ht, hw⟩ := hc
    obtain ⟨t0, hL⟩ := exists_leastCand tr (allCands specs) ⟨t, ht, hw⟩
    obtain ⟨s, -, -, heq, -⟩ :=
      (hitLoop_spec ray tr.start specs objs tr.stop none hF).2 t0 hL
    rw [HittableList.hit] at hn
    rw [hn] at heq
    exact Option.noConfusion heq
  · exact (hitLoop_spec ray tr.start specs objs tr.stop none hF).1

/-- Over contract-satisfying members a returned hit carries the closest
candidate parameter as its t. -/
theorem hit_some_t (ray : Ray) (tr : TRange) (objs : HittableList)
    (specs : List (List ℚ × (ℚ → Hit)))
    (hF : List.Forall₂ (fun o s => SatisfiesContract o ray s.1 s.2) objs specs)
    (h : Hit) (hsome : HittableList.hit objs ray tr = some h) :
    ∃ t, LeastCand (allCands specs) tr t ∧ h.t = t := by
  by_cases hex : ∃ t ∈ allCands specs, InWindow tr t
  · obtain ⟨t0, hL⟩ := exists_leastCand tr (allCands specs) hex
    obtain ⟨s, -, -, heq, hts⟩ :=
      (hitLoop_spec ray tr.start specs objs tr.stop none hF).2 t0 hL
    rw [HittableList.hit] at hsome
    rw [hsome] at heq
    exact ⟨t0, hL, by rw [Option.some_inj.mp heq]; exact hts⟩
  · push_neg at hex
    have hn := (hitLoop_spec ray tr.start specs objs tr.stop none hF).1 hex
    rw [HittableList.hit] at hsome
    rw [hsome] at hn
    exact Option.noConfusion hn

/-- C3 counterexample: two contract-satisfying members that intersect at
the same parameter t=3 but build different hits; swapping their order
changes the aggregate result, so the full result is not order-invariant. -/
theorem hittableList_hit_perm_counterexample :
    SatisfiesContract (singleHit (exHit 3)) exRay [3] (reparamHit (exHit 3)) ∧
    SatisfiesContract (singleHit (exHitF 3)) exRay [3] (reparamHit (exHitF 3)) ∧
    HittableList.hit [singleHit (exHit 3), singleHit (exHitF 3)] exRay ⟨0, 10⟩
      = some (exHit 3) ∧
    HittableList.hit [singleHit (exHitF 3), singleHit (exHit 3)] exRay ⟨0, 10⟩
      = some (exHitF 3) ∧
    exHit 3 ≠ exHitF 3 :=
  ⟨singleHit_contract (exHit 3) exRay, singleHit_contract (exHitF 3) exRay,
   by decide, by decide, by decide⟩

/-- C3 amended: for contract-satisfying members, permuting the members
preserves whether any hit is returned and the returned hit's parameter t
(the full Hit may differ only when distinct members tie at the minimal t);
concretely, with member A at t=5 and member B at t=3 inside the interval
from 0 to 10, both orders return B's hit. -/
theorem hittableList_hit_perm (ray : Ray) (tr : TRange)
    (objs objs' : HittableList)
    (specs specs' : List (List ℚ × (ℚ → Hit)))
    (hF : List.Forall₂ (fun o s => SatisfiesContract o ray s.1 s.2) objs specs)
    (hF' : List.Forall₂ (fun o s => SatisfiesContract o ray s.1 s.2) objs' specs')
    (hperm : List.Perm (allCands specs) (allCands specs')) :
    (HittableList.hit objs ray tr = none ↔ HittableList.hit objs' ray tr = none) ∧
    (∀ h h', HittableList.hit objs ray tr = some h →
      HittableList.hit objs' ray tr = some h' → h.t = h'.t) ∧
    (∀ hA hB : Hit, hA.t = 5 → hB.t = 3 →
      HittableList.hit [singleHit hA, singleHit hB] ray ⟨0, 10⟩ = some hB ∧
      HittableList.hit [singleHit hB, singleHit hA] ray ⟨0, 10⟩ = some hB) := by
  have hmem : ∀ t, t ∈ allCands specs ↔ t ∈ allCands specs' := fun t => hperm.mem_iff
  refine ⟨?_, ?_, ?_⟩
  · rw [hit_none_iff ray tr objs specs hF, hit_none_iff ray tr objs' specs' hF']
    exact ⟨fun H t ht => H t ((hmem t).mpr ht), fun H t ht => H t ((hmem t).mp ht)⟩
  · intro h h' hs hs'
    obtain ⟨t, hL, hht⟩ := hit_some_t ray tr objs specs hF h hs
    obtain ⟨t', hL', hht'⟩ := hit_some_t ray tr objs' specs' hF' h' hs'
    have hL2 : LeastCand (allCands specs') tr t :=
      ⟨(hmem t).mp hL.1, hL.2.1, fun u hu hw => hL.2.2 u ((hmem u).mpr hu) hw⟩
    rw [hht, hht', leastCand_unique hL2 hL']
  · intro hA hB h5 h3
    constructor <;>
      norm_num [HittableList.hit, hitLoop, singleHit, InWindow, h5, h3]

/-- C3 witness: the concrete A-at-5, B-at-3 scenario, in both traversal
orders, obtained from the amended permutation theorem. -/
theorem hittableList_hit_perm_witness :
    HittableList.hit [singleHit (exHit 5), singleHit (exHit 3)] exRay ⟨0, 10⟩
      = some (exHit 3) ∧
    HittableList.hit [singleHit (exHit 3), singleHit (exHit 5)] exRay ⟨0, 10⟩
      = some (exHit 3) := by
  have hF : List.Forall₂ (fun o s => SatisfiesContract o exRay s.1 s.2)
      [singleHit (exHit 5), singleHit (exHit 3)]
      [([5], reparamHit (exHit 5)), ([3], reparamHit (exHit 3))] :=
    List.Forall₂.cons (singleHit_contract (exHit 5) exRay)
      (List.Forall₂.cons (singleHit_contract (exHit 3) exRay) List.Forall₂.nil)
  have hF' : List.Forall₂ (fun o s => SatisfiesContract o exRay s.1 s.2)
      [singleHit (exHit 3), singleHit (exHit 5)]
      [([3], reparamHit (exHit 3)), ([5], reparamHit (exHit 5))] :=
    List.Forall₂.cons (singleHit_contract (exHit 3) exRay)
      (List.Forall₂.cons (singleHit_contract (exHit 5) exRay) List.Forall₂.nil)
  exact (hittableList_hit_perm exRay ⟨0, 10⟩ _ _ _ _ hF hF' (by decide)).2.2
    (exHit 5) (exHit 3) rfl rfl

/-- When every member answers None on the current window the loop returns
its accumulator unchanged (the window never narrows). -/
theorem hitLoop_all_none (ray : Ray) (tmin : ℚ) :
    ∀ (objs : HittableList) (c : ℚ) (acc : Option Hit),
      (∀ o ∈ objs, o ray ⟨tmin, c⟩ = none) → hitLoop ray tmin objs c acc = acc := by
  intro objs
  induction objs with
  | nil => intro c acc _; rfl
  | cons o rest ih =>
    intro c acc hall
    have ho : o ray ⟨tmin, c⟩ = none := hall o (List.mem_cons_self o rest)
    have hstep : hitLoop ray tmin (o :: rest) c acc = hitLoop ray tmin rest c acc := by
      simp [hitLoop, ho]
    rw [hstep]
    exact ih c acc (fun o' ho' => hall o' (List.mem_cons_of_mem o ho'))

/-- C5: the aggregate over the empty collection returns None, and over a
collection none of whose members intersects the queried interval it also
returns None; absence of a hit is the ordinary empty Option value and the
traversal is a total function with no error path. -/
theorem hittableList_hit_empty_or_miss (ray : Ray) (tr : TRange) :
    HittableList.hit [] ray tr = none ∧
    ∀ objs : HittableList,
      (∀ o ∈ objs, o ray tr = none) → HittableList.hit objs ray tr = none := by
  constructor
  · rfl
  · intro objs hall
    exact hitLoop_all_none ray tr.start objs tr.stop none hall

/-- C5 witness: concrete empty collection and a concrete collection whose
single member never intersects. -/
theorem hittableList_hit_empty_or_miss_witness :
    HittableList.hit [] exRay ⟨0, 10⟩ = none ∧
    HittableList.hit [nullObj] exRay ⟨0, 10⟩ = none := by
  refine ⟨(hittableList_hit_empty_or_miss exRay ⟨0, 10⟩).1,
    (hittableList_hit_empty_or_miss exRay ⟨0, 10⟩).2 [nullObj] ?_⟩
  intro o ho
  have : o = nullObj := by simpa using ho
  rw [this]
  rfl

/-- The instrumented loop computes the same result as the source loop. -/
theorem hitLoopT_snd (ray : Ray) (tmin : ℚ) :
    ∀ (objs : HittableList) (c : ℚ) (acc : Option Hit),
      (hitLoopT ray tmin objs c acc).2 = hitLoop ray tmin objs c acc := by
  intro objs
  induction objs with
  | nil => intro c acc; rfl
  | cons o rest ih =>
    intro c acc
    cases hresp : o ray ⟨tmin, c⟩ with
    | some h => simp [hitLoopT, hitLoop, hresp, ih]
    | none => simp [hitLoopT, hitLoop, hresp, ih]

/-- Invariants of the recorded windows: one window per member, constant
lower bound, first upper bound the initial closest-so-far, and each
successive upper bound tightened to the returned hit's t exactly on a
successful match. -/
theorem hitLoopT_window_inv (ray : Ray) (tmin : ℚ) :
    ∀ (objs : HittableList) (c : ℚ) (acc : Option Hit),
      (hitLoopT ray tmin objs c acc).1.length = objs.length ∧
      (∀ w ∈ (hitLoopT ray tmin objs c acc).1, w.start = tmin) ∧
      (objs ≠ [] → (hitLoopT ray tmin objs c acc).1.head? = some ⟨tmin, c⟩) ∧
      (∀ (i : ℕ) (w w' : TRange) (o₂ : Hittable),
        (hitLoopT ray tmin objs c acc).1[i]? = some w →
        (hitLoopT ray tmin objs c acc).1[i + 1]? = some w' →
        objs[i]? = some o₂ →
        w'.stop = match o₂ ray w with | some h => h.t | none => w.stop) := by
  intro objs
  induction objs with
  | nil =>
    intro c acc
    refine ⟨rfl, by simp [hitLoopT], by simp, ?_⟩
    intro i w w' o₂ hw _ _
    simp [hitLoopT] at hw
  | cons o rest ih =>
    intro c acc
    cases hresp : o ray ⟨tmin, c⟩ with
    | some h =>
      have hT : (hitLoopT ray tmin (o :: rest) c acc).1 =
          ⟨tmin, c⟩ :: (hitLoopT ray tmin rest h.t (some h)).1 := by
        simp [hitLoopT, hresp]
      rw [hT]
      obtain ⟨ihlen, ihstart, ihhead, ihstep⟩ := ih h.t (some h)
      refine ⟨by simp [ihlen], ?_, fun _ => rfl, ?_⟩
      · intro w hw
        rcases List.mem_cons.mp hw with rfl | hw'
        · rfl
        · exact ihstart w hw'
      · intro i w w' o₂ hw hw' ho₂
        cases i with
        | zero =>
          have hwv : (⟨tmin, c⟩ : TRange) = w := by simpa using hw
          have ho₂v : o = o₂ := by simpa using ho₂
          subst hwv; subst ho₂v
          cases htr : (hitLoopT ray tmin rest h.t (some h)).1 with
          | nil => rw [htr] at hw'; simp at hw'
          | cons w0 tw =>
            have hrest : rest ≠ [] := by
              intro hre
              subst hre
              simp [hitLoopT] at htr
            have hh := ihhead hrest
            rw [htr] at hh
            have hw0 : w0 = ⟨tmin, h.t⟩ := by simpa using hh
            rw [htr] at hw'
            have hwv' : w0 = w' := by simpa using hw'
            rw [← hwv', hw0, hresp]
        | succ j =>
          have hw2 : (hitLoopT ray tmin rest h.t (some h)).1[j]? = some w := by
            simpa using hw
          have hw2' : (hitLoopT ray tmin rest h.t (some h)).1[j + 1]? = some w' := by
            simpa using hw'
          have ho2 : rest[j]? = some o₂ := by simpa using ho₂
          exact ihstep j w w' o₂ hw2 hw2' ho2
    | none =>
      have hT : (hitLoopT ray tmin (o :: rest) c acc).1 =
          ⟨tmin, c⟩ :: (hitLoopT ray tmin rest c acc).1 := by
        simp [hitLoopT, hresp]
      rw [hT]
      obtain ⟨ihlen, ihstart, ihhead, ihstep⟩ := ih c acc
      refine ⟨by simp [ihlen], ?_, fun _ => rfl, ?_⟩
      · intro w hw
        rcases List.mem_cons.mp hw with rfl | hw'
        · rfl
        · exact ihstart w hw'
      · intro i w w' o₂ hw hw' ho₂
        cases i with
        | zero =>
          have hwv : (⟨tmin, c⟩ : TRange) = w := by simpa using hw
          have ho₂v : o = o₂ := by simpa using ho₂
          subst hwv; subst ho₂v
          cases htr : (hitLoopT ray tmin rest c acc).1 with
          | nil => rw [htr] at hw'; simp at hw'
          | cons w0 tw =>
            have hrest : rest ≠ [] := by
              intro hre
              subst hre
              simp [hitLoopT] at htr
            have hh := ihhead hrest
            rw [htr] at hh
            have hw0 : w0 = ⟨tmin, c⟩ := by simpa using hh
            rw [htr] at hw'
            have hwv' : w0 = w' := by simpa using hw'
            rw [← hwv', hw0, hresp]
        | succ j =>
          have hw2 : (hitLoopT ray tmin rest c acc).1[j]? = some w := by
            simpa using hw
          have hw2' : (hitLoopT ray tmin rest c acc).1[j + 1]? = some w' := by
            simpa using hw'
          have ho2 : rest[j]? = some o₂ := by simpa using ho₂
          exact ihstep j w w' o₂ hw2 hw2' ho2

/-- C4: during HittableList::hit the recorded traversal windows (one per
member) all share the lower bound t_range.start; the first upper bound is
t_range.end; each following upper bound equals the previous one unless the
previous member returned a hit, in which case it is that hit's t; and the
instrumented run computes exactly the aggregate result. -/
theorem hittableList_hit_window_invariant (objs : HittableList) (ray : Ray) (tr : TRange) :
    (hitLoopT ray tr.start objs tr.stop none).1.length = objs.length ∧
    (∀ w ∈ (hitLoopT ray tr.start objs tr.stop none).1, w.start = tr.start) ∧
    (objs ≠ [] →
      (hitLoopT ray tr.start objs tr.stop none).1.head? = some ⟨tr.start, tr.stop⟩) ∧
    (∀ (i : ℕ) (w w' : TRange) (o : Hittable),
      (hitLoopT ray tr.start objs tr.stop none).1[i]? = some w →
      (hitLoopT ray tr.start objs tr.stop none).1[i + 1]? = some w' →
      objs[i]? = some o →
      w'.stop = match o ray w with | some h => h.t | none => w.stop) ∧
    HittableList.hit objs ray tr = (hitLoopT ray tr.start objs tr.stop none).2 := by
  obtain ⟨h1, h2, h3, h4⟩ := hitLoopT_window_inv ray tr.start objs tr.stop none
  exact ⟨h1, h2, h3, h4, (hitLoopT_snd ray tr.start objs tr.stop none).symm⟩

/-- C4 witness: with members at t=3 and t=5 over the interval from 0 to
10, the recorded windows are that interval followed by the interval from 0
to 3 (the first member's hit tightened the upper bound), and the step law
holds at the first index. -/
theorem hittableList_hit_window_invariant_witness :
    (hitLoopT exRay 0 [singleHit (exHit 3), singleHit (exHit 5)] 10 none).1.head?
      = some ⟨0, 10⟩ ∧
    TRange.stop ⟨0, 3⟩ =
      (match singleHit (exHit 3) exRay ⟨0, 10⟩ with
        | some h => h.t
        | none => TRange.stop ⟨0, 10⟩) ∧
    (hitLoopT exRay 0 [singleHit (exHit 3), singleHit (exHit 5)] 10 none).1
      = [⟨0, 10⟩, ⟨0, 3⟩] := by
  refine ⟨?_, ?_, by decide⟩
  · exact (hittableList_hit_window_invariant
      [singleHit (exHit 3), singleHit (exHit 5)] exRay ⟨0, 10⟩).2.2.1 (by simp)
  · exact ((hittableList_hit_window_invariant
      [singleHit (exHit 3), singleHit (exHit 5)] exRay ⟨0, 10⟩).2.2.2.1
      0 ⟨0, 10⟩ ⟨0, 3⟩ (singleHit (exHit 3)) (by decide) (by decide) rfl).symm

/-- The optional last element of a nonempty list, via getD. -/
theorem getLast?_cons_getD (a : Hit) (l : List Hit) :
    (a :: l).getLast? = some (l.getLast?.getD a) := by
  induction l generalizing a with
  | nil => rfl
  | cons b m ih =>
    rw [List.getLast?_cons_cons, ih b]
    simp

/-- Folding the keep-the-last-Some update over a list of responses yields
the last Some response, or the initial accumulator when there is none. -/
theorem foldl_overwrite :
    ∀ (l : List (Option Hit)) (acc : Option Hit),
      l.foldl (fun a o => match o with | some h' => some h' | none => a) acc =
        match (l.filterMap id).getLast? with | some h' => some h' | none => acc := by
  intro l
  induction l with
  | nil => intro acc; rfl
  | cons o m ih =>
    intro acc
    cases o with
    | none =>
      rw [List.foldl_cons, ih]
      rfl
    | some h =>
      rw [List.foldl_cons, ih]
      have hfm : List.filterMap id (some h :: m) = h :: List.filterMap id m := by
        simp
      rw [hfm, getLast?_cons_getD h (List.filterMap id m)]
      cases hgl : (List.filterMap id m).getLast? with
      | none => simp [hgl]
      | some h' => simp [hgl]

/-- The loop is the keep-the-last-Some fold of the members' responses on
their recorded windows. -/
theorem hitLoop_eq_foldl (ray : Ray) (tmin : ℚ) :
    ∀ (objs : HittableList) (c : ℚ) (acc : Option Hit),
      hitLoop ray tmin objs c acc =
        ((objs.zip (hitLoopT ray tmin objs c acc).1).map (fun p => p.1 ray p.2)).foldl
          (fun a o => match o with | some h' => some h' | none => a) acc := by
  intro objs
  induction objs with
  | nil => intro c acc; rfl
  | cons o rest ih =>
    intro c acc
    cases hresp : o ray ⟨tmin, c⟩ with
    | some h =>
      have hL : hitLoop ray tmin (o :: rest) c acc = hitLoop ray tmin rest h.t (some h) := by
        simp [hitLoop, hresp]
      have hT : (hitLoopT ray tmin (o :: rest) c acc).1 =
          ⟨tmin, c⟩ :: (hitLoopT ray tmin rest h.t (some h)).1 := by
        simp [hitLoopT, hresp]
      rw [hL, hT, ih h.t (some h)]
      simp [hresp]
    | none =>
      have hL : hitLoop ray tmin (o :: rest) c acc = hitLoop ray tmin rest c acc := by
        simp [hitLoop, hresp]
      have hT : (hitLoopT ray tmin (o :: rest) c acc).1 =
          ⟨tmin, c⟩ :: (hitLoopT ray tmin rest c acc).1 := by
        simp [hitLoopT, hresp]
      rw [hL, hT, ih c acc]
      simp [hresp]

/-- C9: with no assumption on member behavior, the aggregate result is the
response of the last member (in iteration order) whose query on its
recorded narrowed window returned Some, and None when every member
returned None; a returned hit is accepted unconditionally — in particular
a member reporting a hit regardless of the interval always wins, with no
check that its t lies inside the queried interval. -/
theorem hittableList_hit_last_some (objs : HittableList) (ray : Ray) (tr : TRange) :
    HittableList.hit objs ray tr =
      ((respList objs ray tr.start tr.stop).filterMap id).getLast? ∧
    ∀ h : Hit, HittableList.hit [constObj h] ray tr = some h := by
  constructor
  · rw [HittableList.hit, hitLoop_eq_foldl ray tr.start objs tr.stop none]
    simp only [respList]
    rw [foldl_overwrite]
    cases hgl : ((((objs.zip (hitLoopT ray tr.start objs tr.stop none).1)).map
        (fun p => p.1 ray p.2)).filterMap id).getLast? with
    | none => simp [hgl]
    | some h' => simp [hgl]
  · intro h
    rfl
